import Mathlib

/-!
# S-power basis series (`s-basis.h`)

A shallow embedding of the `Linear` and `SBasis` classes of `src/s-basis.h`
and of the inline operations defined in that header.

Modelling conventions.

* `double` is an arbitrary linearly ordered field `α` (exact arithmetic); the
  statements hold in particular for `ℝ`, and every definition can be run on `ℚ`.
* `std::vector<Linear>` is `List (Linear α)`; indices (`unsigned`, `int`,
  `size_t`) are natural numbers.  The header only builds where `unsigned` and
  `size_t` coincide (`std::min(terms, a.size())`), so no index conversion loses
  bits.
* The checked accessors (`Linear::operator[]`, `SBasis::operator[]`) return
  `Option`; `none` is the failed assertion.  Every operation that goes through
  a checked accessor is `Option`-valued as well.
* `multiply` and `shift` are declared in the header and defined outside it; they
  are modelled from the specification, and their doc comments say so.
-/

namespace Geom

variable {α : Type} [LinearOrderedField α]

/-! ## Hat, Tri, Linear -/

/-- The class `Hat`: a wrapped midpoint value. -/
structure Hat (α : Type) where
  d : α
deriving DecidableEq

/-- The class `Tri`: a wrapped variation value. -/
structure Tri (α : Type) where
  d : α
deriving DecidableEq

/-- The class `Linear`: the member array `a[2]`, as the fields `a0` and `a1`. -/
structure Linear (α : Type) where
  a0 : α
  a1 : α
deriving DecidableEq

namespace Linear

/-- The constructor `Linear(Hat h, Tri t)`. -/
def ofHatTri (h : Hat α) (t : Tri α) : Linear α :=
  ⟨h.d - t.d / 2, h.d + t.d / 2⟩

/-- The constructor `Linear(Hat h)`. -/
def ofHat (h : Hat α) : Linear α :=
  ⟨h.d, h.d⟩

/-- The checked accessor `Linear::operator[](int i)`:
`assert(i >= 0); assert(i < 2); return a[i];`. -/
def index (l : Linear α) (i : Int) : Option α :=
  if 0 ≤ i then
    if i < 2 then
      some (if i = 0 then l.a0 else l.a1)
    else none
  else none

/-- The method `Linear::isZero`: `a[0] == 0 && a[1] == 0`. -/
def isZero (l : Linear α) : Bool :=
  decide (l.a0 = 0) && decide (l.a1 = 0)

/-- The method `Linear::at0`. -/
def at0 (l : Linear α) : α := l.a0

/-- The method `Linear::at1`. -/
def at1 (l : Linear α) : α := l.a1

/-- The method `Linear::pointAt`: `a[0]*(1-t) + a[1]*t`. -/
def pointAt (l : Linear α) (t : α) : α :=
  l.a0 * (1 - t) + l.a1 * t

/-- The method `Linear::reverse`: `Linear(a[1], a[0])`. -/
def reverse (l : Linear α) : Linear α :=
  ⟨l.a1, l.a0⟩

/-- The conversion `Linear::operator Tri`: `a[1] - a[0]`. -/
def toTri (l : Linear α) : Tri α :=
  ⟨l.a1 - l.a0⟩

/-- The conversion `Linear::operator Hat`: `(a[1] + a[0])/2`. -/
def toHat (l : Linear α) : Hat α :=
  ⟨(l.a1 + l.a0) / 2⟩

end Linear

/-! ## SBasis -/

/-- The class `SBasis`, a `std::vector<Linear>`; the empty series is identically 0. -/
abbrev SBasis (α : Type) := List (Linear α)

/-- Counted loop `for (k = 0; k < n; k++) body`, threading the loop state
through a body that may fail. -/
def forUpTo {σ : Type} (n : Nat) (body : Nat → σ → Option σ) (init : σ) : Option σ :=
  (List.range n).foldlM (fun st k => body k st) init

namespace SBasis

/-- The checked accessor `SBasis::operator[](unsigned i)`: the const version
asserts `i < size()`, the mutable version is `this->at(i)`. -/
def index (a : SBasis α) (i : Nat) : Option (Linear α) :=
  if i < a.length then a[i]? else none

/-- The constructor `SBasis(Linear const & bo)`: `push_back(bo)` on the empty series. -/
def ofLinear (bo : Linear α) : SBasis α :=
  ([] : List (Linear α)) ++ [bo]

/-- The method `SBasis::at0`: `if(empty()) return 0; else return (*this)[0][0];`. -/
def at0 (a : SBasis α) : Option α :=
  if a.isEmpty then some 0 else do
    let l ← index a 0
    l.index 0

/-- The method `SBasis::at1`: `if(empty()) return 0; else return (*this)[0][1];`. -/
def at1 (a : SBasis α) : Option α :=
  if a.isEmpty then some 0 else do
    let l ← index a 0
    l.index 1

/-- The body of the loop of `SBasis::pointAt` on the state `(p0, p1, sk)`:
`p0 += sk*(*this)[k][0]; p1 += sk*(*this)[k][1]; sk *= s;`. -/
def pointAtBody (a : SBasis α) (s : α) (k : Nat) (st : α × α × α) : Option (α × α × α) := do
  let l0 ← index a k
  let c0 ← l0.index 0
  let p0 := st.1 + st.2.2 * c0
  let l1 ← index a k
  let c1 ← l1.index 1
  let p1 := st.2.1 + st.2.2 * c1
  let sk := st.2.2 * s
  some (p0, p1, sk)

/-- The method `SBasis::pointAt`. -/
def pointAt (a : SBasis α) (t : α) : Option α := do
  let s := t * (1 - t)
  let st ← forUpTo a.length (pointAtBody a s) (0, 0, 1)
  some ((1 - t) * st.1 + t * st.2.1)

/-- The body of the loop of `SBasis::reverse`: `a.push_back((*this)[k].reverse())`. -/
def reverseBody (self : SBasis α) (k : Nat) (a : SBasis α) : Option (SBasis α) := do
  let l ← index self k
  some (a ++ [l.reverse])

/-- The method `SBasis::reverse`. -/
def reverse (self : SBasis α) : Option (SBasis α) :=
  forUpTo self.length (reverseBody self) []

/-- The method `SBasis::normalize`:
`while(!empty() && 0 == back()[0] && 0 == back()[1]) pop_back();`. -/
def normalize (a : SBasis α) : Option (SBasis α) :=
  if h : a = [] then some a
  else
    match (a.getLast h).index 0 with
    | none => none
    | some c0 =>
      if 0 = c0 then
        match (a.getLast h).index 1 with
        | none => none
        | some c1 =>
          if 0 = c1 then normalize a.dropLast else some a
      else some a
termination_by a.length
decreasing_by
  simp only [List.length_dropLast]
  exact Nat.sub_lt (List.length_pos.mpr h) Nat.one_pos

/-- The method `SBasis::truncate(unsigned k)`: `if(k < size()) resize(k);`
(a `resize` below the current size keeps the first `k` terms). -/
def truncate (a : SBasis α) (k : Nat) : SBasis α :=
  if k < a.length then a.take k else a

end SBasis

/-- The method `Linear::toSBasis`: `SBasis(*this)`. -/
def Linear.toSBasis (l : Linear α) : SBasis α :=
  SBasis.ofLinear l

/-- The loop of `valuation`, from `val` down to 1:
`for(int c = 0; c < 2; c++) if(fabs(a[val][c]) < tol) return val;`,
and `return 0` once `val` reaches 0. -/
def valuationLoop (a : SBasis α) (tol : α) : Nat → Option Nat
  | 0 => some 0
  | val + 1 => do
    let l0 ← SBasis.index a (val + 1)
    let c0 ← l0.index 0
    if |c0| < tol then some (val + 1) else do
      let l1 ← SBasis.index a (val + 1)
      let c1 ← l1.index 1
      if |c1| < tol then some (val + 1) else
        valuationLoop a tol val

/-- The function `valuation(SBasis const &a, double tol)`. -/
def valuation (a : SBasis α) (tol : α) : Option Nat :=
  if a.isEmpty then some 0 else valuationLoop a tol (a.length - 1)

/-- The default argument `tol=0` of `valuation`. -/
def valuationDefaultTol : α := 0

/-! ## Linear arithmetic used by the series operators -/

namespace Linear

/-- A write through the mutable accessor `Linear::operator[](int i)`, as in
`a[i] += x`: `assert(i >= 0); assert(i < 2);` and then coefficient `i` is replaced
by `f` of its value. -/
def update (l : Linear α) (i : Int) (f : α → α) : Option (Linear α) :=
  if 0 ≤ i then
    if i < 2 then
      some (if i = 0 then ⟨f l.a0, l.a1⟩ else ⟨l.a0, f l.a1⟩)
    else none
  else none

/-- The operator `operator-(Linear const &a)`: `Linear(-a.a[0], -a.a[1])`. -/
def neg (a : Linear α) : Linear α :=
  ⟨-a.a0, -a.a1⟩

/-- The operator `operator+=(Linear & a, Linear const & b)`:
`a[0] += b[0]; a[1] += b[1];`. -/
def addAssign (a b : Linear α) : Option (Linear α) := do
  let b0 ← b.index 0
  let a ← a.update 0 (fun x => x + b0)
  let b1 ← b.index 1
  a.update 1 (fun x => x + b1)

/-- The operator `operator-=(Linear & a, Linear const & b)`:
`a[0] -= b[0]; a[1] -= b[1];`. -/
def subAssign (a b : Linear α) : Option (Linear α) := do
  let b0 ← b.index 0
  let a ← a.update 0 (fun x => x - b0)
  let b1 ← b.index 1
  a.update 1 (fun x => x - b1)

/-- The operator `operator+=(Linear & a, double b)`: `a[0] += b; a[1] += b;`. -/
def addAssignDouble (a : Linear α) (b : α) : Option (Linear α) := do
  let a ← a.update 0 (fun x => x + b)
  a.update 1 (fun x => x + b)

/-- The operator `operator-=(Linear & a, double b)`: `a[0] -= b; a[1] -= b;`. -/
def subAssignDouble (a : Linear α) (b : α) : Option (Linear α) := do
  let a ← a.update 0 (fun x => x - b)
  a.update 1 (fun x => x - b)

end Linear

/-! ## Series operators -/

namespace SBasis

/-- The mutable accessor `Linear& SBasis::operator[](unsigned i)`:
`return this->at(i);`, which fails when `i >= size()`. -/
def indexMut (a : SBasis α) (i : Nat) : Option (Linear α) :=
  if i < a.length then a[i]? else none

/-- A compound assignment `a[i] op= x` on a mutable series: the term is fetched
with the mutable accessor, `op` is run on it, and the result is stored in place. -/
def update (a : SBasis α) (i : Nat) (op : Linear α → Option (Linear α)) :
    Option (SBasis α) := do
  let l ← indexMut a i
  let r ← op l
  some (a.set i r)

/-- The loop of `SBasis::isZero`, from index `i`:
`for(; i < size(); i++) if(!(*this)[i].isZero()) return false;` and then
`return true`. -/
def isZeroLoop (a : SBasis α) (i : Nat) : Option Bool :=
  if i < a.length then
    match index a i with
    | none => none
    | some l => if !l.isZero then some false else isZeroLoop a (i + 1)
  else some true
termination_by a.length - i

/-- The method `SBasis::isZero`: `if(empty()) return true;` and then the loop. -/
def isZero (a : SBasis α) : Option Bool :=
  if a.isEmpty then some true else isZeroLoop a 0

/-- The body of the loop of `operator-(const SBasis& p)`: `result.push_back(-p[i])`. -/
def negBody (p : SBasis α) (i : Nat) (result : SBasis α) : Option (SBasis α) := do
  let l ← index p i
  some (result ++ [l.neg])

/-- The operator `operator-(const SBasis& p)`:
`if(p.isZero()) return SBasis();` and then the loop over the terms. -/
def neg (p : SBasis α) : Option (SBasis α) := do
  let z ← isZero p
  if z then some [] else forUpTo p.length (negBody p) []

end SBasis

/-- The operator `operator+(Linear const & b, const SBasis & a)`:
`if(b.isZero()) return a; if(a.isZero()) return b;`
`SBasis result(a); result[0] += b; return result;`. -/
def addLinearSBasis (b : Linear α) (a : SBasis α) : Option (SBasis α) :=
  if b.isZero then some a else do
    let z ← SBasis.isZero a
    if z then some (SBasis.ofLinear b) else
      SBasis.update a 0 (fun l => l.addAssign b)

/-- The operator `operator-(Linear const & b, const SBasis & a)`:
`if(a.isZero()) return b; SBasis result = -a; result[0] += b; return result;`. -/
def subLinearSBasis (b : Linear α) (a : SBasis α) : Option (SBasis α) := do
  let z ← SBasis.isZero a
  if z then some (SBasis.ofLinear b) else do
    let result ← SBasis.neg a
    SBasis.update result 0 (fun l => l.addAssign b)

/-- The operator `operator+=(SBasis& a, const Linear& b)`:
`if(a.isZero()) a.push_back(b); else a[0] += b; return a;`. -/
def addAssignLinear (a : SBasis α) (b : Linear α) : Option (SBasis α) := do
  let z ← SBasis.isZero a
  if z then some (a ++ [b]) else
    SBasis.update a 0 (fun l => l.addAssign b)

/-- The operator `operator-=(SBasis& a, const Linear& b)`:
`if(a.isZero()) a.push_back(-b); else a[0] -= b; return a;`. -/
def subAssignLinear (a : SBasis α) (b : Linear α) : Option (SBasis α) := do
  let z ← SBasis.isZero a
  if z then some (a ++ [b.neg]) else
    SBasis.update a 0 (fun l => l.subAssign b)

/-- The operator `operator+(double b, const SBasis & a)`:
`if(a.isZero()) return Linear(b, b); SBasis result(a); result[0] += b; return a;`. -/
def addDoubleSBasis (b : α) (a : SBasis α) : Option (SBasis α) := do
  let z ← SBasis.isZero a
  if z then some (SBasis.ofLinear ⟨b, b⟩) else do
    let _result ← SBasis.update a 0 (fun l => l.addAssignDouble b)
    some a

/-- The operator `operator+=(SBasis& a, double b)`:
`if(a.isZero()) a.push_back(Linear(b,b)); else a[0] += b; return a;`. -/
def addAssignDouble (a : SBasis α) (b : α) : Option (SBasis α) := do
  let z ← SBasis.isZero a
  if z then some (a ++ [⟨b, b⟩]) else
    SBasis.update a 0 (fun l => l.addAssignDouble b)

/-- The operator `operator-=(SBasis& a, double b)`:
`if(a.isZero()) a.push_back(Linear(b,b)); else a[0] -= b; return a;`. -/
def subAssignDouble (a : SBasis α) (b : α) : Option (SBasis α) := do
  let z ← SBasis.isZero a
  if z then some (a ++ [⟨b, b⟩]) else
    SBasis.update a 0 (fun l => l.subAssignDouble b)

/-- The free function `truncate(SBasis const &a, unsigned terms)`:
`c.insert(c.begin(), a.begin(), a.begin() + std::min(terms, a.size()))`. -/
def truncate (a : SBasis α) (terms : Nat) : SBasis α :=
  ([] : List (Linear α)) ++ a.take (min terms a.length)

/-! ## Specification-side definitions -/

/-- Horner-scheme evaluation of the coefficient list `cs` at `s`
(the reading of the specification, compared with the loop of `pointAt`). -/
def hornerSpec (cs : List α) (s : α) : α :=
  match cs with
  | [] => 0
  | c :: rest => c + s * hornerSpec rest s

/-- Whether term `i` of `a` exists and at least one of its two coefficients has
magnitude strictly below `tol` (the test the specification gives for the scan
of `valuation`). -/
def coeffBelowTol (a : SBasis α) (tol : α) (i : Nat) : Bool :=
  match a[i]? with
  | some l => decide (|l.a0| < tol) || decide (|l.a1| < tol)
  | none => false

/-- The valuation as the specification words it: the index of the lowest-order
term that is not the zero term, and 0 for a series without such a term. -/
def valuationSpec (a : SBasis α) : Nat :=
  match a.findIdx? (fun l => !l.isZero) with
  | some i => i
  | none => 0

/-- The function a series represents, as the specification defines it:
`(1 - t) * Σ_k a_k0 * s^k + t * Σ_k a_k1 * s^k` with `s = t(1-t)`. -/
def evalSpec (a : SBasis α) (t : α) : α :=
  (1 - t) * hornerSpec (a.map Linear.a0) (t * (1 - t))
    + t * hornerSpec (a.map Linear.a1) (t * (1 - t))

/-! ## Functions declared in the header and defined outside it -/

/-- Modelled from the spec: termwise addition "on the shorter-padded-with-zero
sequence", the result having the length of the longer operand (the sum used
inside `multiply`, whose own definition is not in the header). -/
def addPadded : SBasis α → SBasis α → SBasis α
  | [], b => b
  | x :: a, [] => x :: a
  | x :: a, y :: b => ⟨x.a0 + y.a0, x.a1 + y.a1⟩ :: addPadded a b

/-- Modelled from the spec: `shift(a, n)`, declared in the header and defined
outside it: "multiply the represented function by `(t(1-t))^n`, implemented as
prepending `n` zero terms". -/
def shift (a : SBasis α) (n : Nat) : SBasis α :=
  List.replicate n (⟨0, 0⟩ : Linear α) ++ a

/-- Modelled from the spec: the product of one order-0 term `l` with the series
`b`, by the product rule of the basis,
`(a0(1-t) + a1 t)(b0(1-t) + b1 t) = a0 b0 (1-t) + a1 b1 t - t(1-t)(a1-a0)(b1-b0)`:
the product with the term of order `j` lands on the orders `j` and `j+1`. -/
def mulLinear (l : Linear α) : SBasis α → SBasis α
  | [] => []
  | y :: b =>
    addPadded
      [⟨l.a0 * y.a0, l.a1 * y.a1⟩, Linear.ofHat ⟨-(l.toTri.d * y.toTri.d)⟩]
      (shift (mulLinear l b) 1)

/-- Modelled from the spec: the terms of the "full polynomial multiplication in
the S-basis" of `a` and `b` before trailing zeros are stripped: the term of
order `i` of `a` times `b`, shifted by `i` orders, summed over `i`. -/
def multiplyTerms : SBasis α → SBasis α → SBasis α
  | [], _ => []
  | x :: a, b => addPadded (mulLinear x b) (shift (multiplyTerms a b) 1)

/-- Modelled from the spec: `multiply(a, b)`, declared in the header and defined
outside it: the full product in the S-basis, normalized. -/
def multiply (a b : SBasis α) : Option (SBasis α) :=
  SBasis.normalize (multiplyTerms a b)

/-- The operator `operator*(SBasis const & a, SBasis const & b)`:
`return multiply(a, b);`. -/
def mulSBasis (a b : SBasis α) : Option (SBasis α) :=
  multiply a b

/-- The operator `operator*=(SBasis& a, SBasis const & b)`:
`a = multiply(a, b); return a;`. -/
def mulAssignSBasis (a b : SBasis α) : Option (SBasis α) :=
  multiply a b

/-! # Theorems -/

set_option linter.unusedSectionVars false

/-! ## Accessors -/

theorem SBasis.index_of_lt (a : SBasis α) (i : Nat) (h : i < a.length) :
    SBasis.index a i = some (a.get ⟨i, h⟩) := by
  simp [SBasis.index, h, List.getElem?_eq_getElem]

theorem SBasis.index_of_ge (a : SBasis α) (i : Nat) (h : a.length ≤ i) :
    SBasis.index a i = none := by
  simp [SBasis.index, Nat.not_lt.mpr h]

theorem Linear.index_zero (l : Linear α) : l.index 0 = some l.a0 := by
  simp [Linear.index]

theorem Linear.index_one (l : Linear α) : l.index 1 = some l.a1 := by
  simp [Linear.index]

/-! ## Counted loops -/

theorem forUpTo_zero {σ : Type} (body : Nat → σ → Option σ) (init : σ) :
    forUpTo 0 body init = some init := by
  simp [forUpTo]

theorem forUpTo_succ {σ : Type} (n : Nat) (body : Nat → σ → Option σ) (init : σ) :
    forUpTo (n + 1) body init = (forUpTo n body init).bind (body n) := by
  simp [forUpTo, List.range_succ, List.foldlM_append]

/-! ## Evaluation -/

theorem map_getD_of_lt (a : SBasis α) (f : Linear α → α) (n : Nat) (h : n < a.length) :
    (a.map f).getD n 0 = f (a.get ⟨n, h⟩) := by
  simp [List.getD, List.getElem?_map, List.getElem?_eq_getElem h]

theorem pointAt_loop (a : SBasis α) (s : α) (n : Nat) (hn : n ≤ a.length) :
    forUpTo n (SBasis.pointAtBody a s) (0, 0, 1) =
      some (∑ k in Finset.range n, (a.map Linear.a0).getD k 0 * s ^ k,
            ∑ k in Finset.range n, (a.map Linear.a1).getD k 0 * s ^ k,
            s ^ n) := by
  induction n with
  | zero => simp [forUpTo_zero]
  | succ n ih =>
    have hlt : n < a.length := hn
    rw [forUpTo_succ, ih (Nat.le_of_lt hlt)]
    simp only [Option.some_bind, Option.bind_eq_bind, SBasis.pointAtBody, SBasis.index_of_lt a n hlt,
      Linear.index_zero, Linear.index_one, Finset.sum_range_succ, map_getD_of_lt a _ n hlt, pow_succ]
    simp [mul_comm]

theorem sum_getD_eq_horner (cs : List α) (s : α) :
    ∑ k in Finset.range cs.length, cs.getD k 0 * s ^ k = hornerSpec cs s := by
  induction cs with
  | nil => simp [hornerSpec]
  | cons c rest ih =>
    rw [List.length_cons, Finset.sum_range_succ', hornerSpec, ← ih, Finset.mul_sum]
    simp only [List.getD_cons_succ, List.getD_cons_zero, pow_zero, mul_one, pow_succ]
    rw [add_comm]
    congr 1
    apply Finset.sum_congr rfl
    intro k _
    ring

theorem SBasis.pointAt_eq_horner (a : SBasis α) (t : α) :
    a.pointAt t =
      some ((1 - t) * hornerSpec (a.map Linear.a0) (t * (1 - t))
            + t * hornerSpec (a.map Linear.a1) (t * (1 - t))) := by
  have h0 := sum_getD_eq_horner (a.map Linear.a0) (t * (1 - t))
  have h1 := sum_getD_eq_horner (a.map Linear.a1) (t * (1 - t))
  rw [List.length_map] at h0 h1
  simp only [SBasis.pointAt, pointAt_loop a _ a.length (Nat.le_refl _), Option.bind_eq_bind,
    Option.some_bind, h0, h1]

theorem reverse_loop (a : SBasis α) (n : Nat) (hn : n ≤ a.length) :
    forUpTo n (SBasis.reverseBody a) [] = some ((a.take n).map Linear.reverse) := by
  induction n with
  | zero => simp [forUpTo_zero]
  | succ n ih =>
    have hlt : n < a.length := hn
    rw [forUpTo_succ, ih (Nat.le_of_lt hlt)]
    simp only [SBasis.reverseBody, SBasis.index_of_lt a n hlt, List.take_succ,
      List.getElem?_eq_getElem hlt, Option.some_bind, Option.bind_eq_bind, Option.toList_some,
      List.map_append, List.map_cons, List.map_nil, List.get_eq_getElem]

theorem SBasis.reverse_eq_map (a : SBasis α) :
    a.reverse = some (a.map Linear.reverse) := by
  simp [SBasis.reverse, reverse_loop a a.length (Nat.le_refl _)]

theorem Linear.reverse_pointAt (l : Linear α) (t : α) :
    l.reverse.pointAt t = l.pointAt (1 - t) := by
  simp only [Linear.reverse, Linear.pointAt]
  ring

theorem map_a0_reverse (a : SBasis α) :
    (a.map Linear.reverse).map Linear.a0 = a.map Linear.a1 := by
  simp [List.map_map, Function.comp_def, Linear.reverse]

theorem map_a1_reverse (a : SBasis α) :
    (a.map Linear.reverse).map Linear.a1 = a.map Linear.a0 := by
  simp [List.map_map, Function.comp_def, Linear.reverse]

theorem map_reverse_reverse (a : SBasis α) :
    (a.map Linear.reverse).map Linear.reverse = a := by
  simp [List.map_map, Function.comp_def, Linear.reverse]

theorem SBasis.at0_eq (a : SBasis α) :
    a.at0 = some (match a with | [] => 0 | l :: _ => l.a0) := by
  cases a with
  | nil => simp [SBasis.at0]
  | cons l rest => simp [SBasis.at0, SBasis.index, Linear.index_zero]

theorem SBasis.at1_eq (a : SBasis α) :
    a.at1 = some (match a with | [] => 0 | l :: _ => l.a1) := by
  cases a with
  | nil => simp [SBasis.at1]
  | cons l rest => simp [SBasis.at1, SBasis.index, Linear.index_one]

/-! ## normalize -/

theorem SBasis.normalize_nil : SBasis.normalize ([] : SBasis α) = some [] := by
  rw [SBasis.normalize]
  simp

theorem SBasis.normalize_concat (xs : SBasis α) (x : Linear α) :
    SBasis.normalize (xs ++ [x]) =
      if x.isZero then SBasis.normalize xs else some (xs ++ [x]) := by
  rw [SBasis.normalize]
  have hne : xs ++ [x] ≠ [] := by simp
  simp only [hne, dite_false, List.getLast_append_singleton, List.dropLast_concat,
    Linear.index_zero, Linear.index_one, Linear.isZero]
  by_cases h0 : x.a0 = 0
  · by_cases h1 : x.a1 = 0
    · simp [h0, h1]
    · have h1' : ¬ (0 = x.a1) := fun h => h1 h.symm
      simp [h0, h1, h1']
  · have h0' : ¬ (0 = x.a0) := fun h => h0 h.symm
    simp [h0, h0']

/-! ## valuation -/

theorem coeffBelowTol_of_lt (a : SBasis α) (tol : α) (i : Nat) (h : i < a.length) :
    coeffBelowTol a tol i =
      (decide (|(a.get ⟨i, h⟩).a0| < tol) || decide (|(a.get ⟨i, h⟩).a1| < tol)) := by
  simp [coeffBelowTol, List.getElem?_eq_getElem h]

theorem valuationLoop_succ (a : SBasis α) (tol : α) (n : Nat) (h : n + 1 < a.length) :
    valuationLoop a tol (n + 1) =
      if coeffBelowTol a tol (n + 1) = true then some (n + 1) else valuationLoop a tol n := by
  rw [valuationLoop, coeffBelowTol_of_lt a tol (n + 1) h]
  simp only [SBasis.index_of_lt a (n + 1) h, Linear.index_zero, Linear.index_one,
    Option.bind_eq_bind, Option.some_bind]
  by_cases h0 : |(a[n + 1]).a0| < tol
  · simp [h0]
  · by_cases h1 : |(a[n + 1]).a1| < tol
    · simp [h0, h1]
    · simp [h0, h1]

theorem valuationLoop_spec (a : SBasis α) (tol : α) (n : Nat) (hn : n < a.length) :
    ∃ v, valuationLoop a tol n = some v ∧
      ((1 ≤ v ∧ v ≤ n ∧ coeffBelowTol a tol v = true
          ∧ ∀ i, v < i → i ≤ n → coeffBelowTol a tol i = false)
       ∨ (v = 0 ∧ ∀ i, 1 ≤ i → i ≤ n → coeffBelowTol a tol i = false)) := by
  induction n with
  | zero =>
    refine ⟨0, by simp [valuationLoop], Or.inr ⟨rfl, ?_⟩⟩
    intro i h1 h0
    omega
  | succ n ih =>
    rw [valuationLoop_succ a tol n hn]
    by_cases hb : coeffBelowTol a tol (n + 1) = true
    · refine ⟨n + 1, by simp [hb], Or.inl ⟨by omega, Nat.le_refl _, hb, ?_⟩⟩
      intro i h1 h2
      omega
    · have hb' : coeffBelowTol a tol (n + 1) = false := by simpa using hb
      obtain ⟨v, hv, hcase⟩ := ih (Nat.lt_of_succ_lt hn)
      refine ⟨v, by simp [hb, hv], ?_⟩
      rcases hcase with ⟨h1, h2, h3, h4⟩ | ⟨h1, h2⟩
      · refine Or.inl ⟨h1, by omega, h3, ?_⟩
        intro i hi1 hi2
        rcases Nat.lt_or_ge i (n + 1) with h | h
        · exact h4 i hi1 (by omega)
        · have : i = n + 1 := by omega
          rw [this]; exact hb'
      · refine Or.inr ⟨h1, ?_⟩
        intro i hi1 hi2
        rcases Nat.lt_or_ge i (n + 1) with h | h
        · exact h2 i hi1 (by omega)
        · have : i = n + 1 := by omega
          rw [this]; exact hb'

theorem coeffBelowTol_zero (a : SBasis α) (i : Nat) : coeffBelowTol a 0 i = false := by
  unfold coeffBelowTol
  cases a[i]? with
  | none => rfl
  | some l => simp [not_lt.mpr (abs_nonneg l.a0), not_lt.mpr (abs_nonneg l.a1)]

theorem valuationLoop_zero_tol (a : SBasis α) (n : Nat) (hn : n < a.length) :
    valuationLoop a 0 n = some 0 := by
  induction n with
  | zero => simp [valuationLoop]
  | succ n ih =>
    rw [valuationLoop_succ a 0 n hn, coeffBelowTol_zero]
    simpa using ih (Nat.lt_of_succ_lt hn)

/-- With the default tolerance 0 no coefficient magnitude is below the tolerance,
so `valuation` returns 0 on every series. -/
theorem valuation_zero_tol (a : SBasis α) : valuation a valuationDefaultTol = some 0 := by
  cases a with
  | nil => simp [valuation]
  | cons x xs =>
    have h := valuationLoop_zero_tol (x :: xs) ((x :: xs).length - 1) (by simp)
    simpa [valuation, valuationDefaultTol] using h

/-! ## The represented function -/

theorem SBasis.pointAt_eq_evalSpec (a : SBasis α) (t : α) :
    a.pointAt t = some (evalSpec a t) :=
  SBasis.pointAt_eq_horner a t

theorem evalSpec_nil (t : α) : evalSpec ([] : SBasis α) t = 0 := by
  simp [evalSpec, hornerSpec]

theorem evalSpec_cons (x : Linear α) (a : SBasis α) (t : α) :
    evalSpec (x :: a) t = x.pointAt t + t * (1 - t) * evalSpec a t := by
  simp only [evalSpec, List.map_cons, hornerSpec, Linear.pointAt]
  ring

theorem evalSpec_append (a b : SBasis α) (t : α) :
    evalSpec (a ++ b) t = evalSpec a t + (t * (1 - t)) ^ a.length * evalSpec b t := by
  induction a with
  | nil => simp [evalSpec_nil]
  | cons x a ih =>
    rw [List.cons_append, evalSpec_cons, evalSpec_cons, ih, List.length_cons, pow_succ]
    ring

theorem Linear.isZero_iff (l : Linear α) : l.isZero = true ↔ l = ⟨0, 0⟩ := by
  cases l with
  | mk a0 a1 => simp [Linear.isZero]

theorem Linear.pointAt_of_isZero (l : Linear α) (h : l.isZero = true) (t : α) :
    l.pointAt t = 0 := by
  rw [(Linear.isZero_iff l).mp h]
  simp [Linear.pointAt]

theorem evalSpec_of_all_zero (a : SBasis α) (h : ∀ l ∈ a, l.isZero = true) (t : α) :
    evalSpec a t = 0 := by
  induction a with
  | nil => exact evalSpec_nil t
  | cons x a ih =>
    rw [evalSpec_cons, Linear.pointAt_of_isZero x (h x (List.mem_cons_self x a)),
      ih (fun l hl => h l (List.mem_cons_of_mem x hl))]
    ring

/-! ## isZero -/

theorem SBasis.isZeroLoop_eq (a : SBasis α) (n i : Nat) (hn : a.length - i = n) :
    SBasis.isZeroLoop a i = some ((a.drop i).all Linear.isZero) := by
  induction n generalizing i with
  | zero =>
    have hle : a.length ≤ i := by omega
    rw [SBasis.isZeroLoop, if_neg (Nat.not_lt.mpr hle), List.drop_of_length_le hle]
    rfl
  | succ n ih =>
    have hlt : i < a.length := by omega
    rw [SBasis.isZeroLoop, if_pos hlt, SBasis.index_of_lt a i hlt, List.drop_eq_getElem_cons hlt,
      List.all_cons]
    simp only [List.get_eq_getElem]
    by_cases hz : (a[i]).isZero = true
    · rw [ih (i + 1) (by omega)]
      simp [hz]
    · simp [hz]

theorem SBasis.isZero_eq (a : SBasis α) : a.isZero = some (a.all Linear.isZero) := by
  cases a with
  | nil => simp [SBasis.isZero]
  | cons x xs =>
    have h := SBasis.isZeroLoop_eq (x :: xs) _ 0 rfl
    simpa [SBasis.isZero] using h

theorem SBasis.isZero_true_iff (a : SBasis α) :
    a.isZero = some true ↔ ∀ l ∈ a, l.isZero = true := by
  rw [SBasis.isZero_eq]
  simp [List.all_eq_true]

/-! ## Writes through the mutable accessors -/

theorem Linear.addAssign_eq (a b : Linear α) :
    a.addAssign b = some ⟨a.a0 + b.a0, a.a1 + b.a1⟩ := by
  simp [Linear.addAssign, Linear.index, Linear.update]

theorem Linear.subAssign_eq (a b : Linear α) :
    a.subAssign b = some ⟨a.a0 - b.a0, a.a1 - b.a1⟩ := by
  simp [Linear.subAssign, Linear.index, Linear.update]

theorem Linear.addAssignDouble_eq (a : Linear α) (b : α) :
    a.addAssignDouble b = some ⟨a.a0 + b, a.a1 + b⟩ := by
  simp [Linear.addAssignDouble, Linear.update]

theorem Linear.subAssignDouble_eq (a : Linear α) (b : α) :
    a.subAssignDouble b = some ⟨a.a0 - b, a.a1 - b⟩ := by
  simp [Linear.subAssignDouble, Linear.update]

theorem SBasis.update_zero_cons (x : Linear α) (a : SBasis α)
    (op : Linear α → Option (Linear α)) :
    SBasis.update (x :: a) 0 op = (op x).map (fun r => r :: a) := by
  cases h : op x <;> simp [SBasis.update, SBasis.indexMut, h]

theorem SBasis.update_nil (i : Nat) (op : Linear α → Option (Linear α)) :
    SBasis.update ([] : SBasis α) i op = none := by
  simp [SBasis.update, SBasis.indexMut]

/-! ## Unary minus -/

theorem neg_loop (a : SBasis α) (n : Nat) (hn : n ≤ a.length) :
    forUpTo n (SBasis.negBody a) [] = some ((a.take n).map Linear.neg) := by
  induction n with
  | zero => simp [forUpTo_zero]
  | succ n ih =>
    have hlt : n < a.length := hn
    rw [forUpTo_succ, ih (Nat.le_of_lt hlt)]
    simp only [SBasis.negBody, SBasis.index_of_lt a n hlt, List.take_succ,
      List.getElem?_eq_getElem hlt, Option.some_bind, Option.bind_eq_bind, Option.toList_some,
      List.map_append, List.map_cons, List.map_nil, List.get_eq_getElem]

theorem SBasis.neg_eq (a : SBasis α) :
    a.neg = some (if a.all Linear.isZero then [] else a.map Linear.neg) := by
  simp only [SBasis.neg, SBasis.isZero_eq, Option.bind_eq_bind, Option.some_bind,
    neg_loop a a.length (Nat.le_refl _), List.take_length]
  split <;> rfl

theorem evalSpec_map_neg (a : SBasis α) (t : α) :
    evalSpec (a.map Linear.neg) t = - evalSpec a t := by
  induction a with
  | nil => simp [evalSpec_nil]
  | cons x a ih =>
    rw [List.map_cons, evalSpec_cons, evalSpec_cons, ih]
    simp only [Linear.neg, Linear.pointAt]
    ring

/-! ## Operators with a Linear term or a constant -/

theorem SBasis.exists_cons_of_not_all_zero (a : SBasis α) (h : a.all Linear.isZero = false) :
    ∃ x xs, a = x :: xs := by
  cases a with
  | nil => simp at h
  | cons x xs => exact ⟨x, xs, rfl⟩

theorem evalSpec_all_zero (a : SBasis α) (h : a.all Linear.isZero = true) (t : α) :
    evalSpec a t = 0 :=
  evalSpec_of_all_zero a (List.all_eq_true.mp h) t

theorem addLinearSBasis_of_isZero (b : Linear α) (a : SBasis α) (h : b.isZero = true) :
    addLinearSBasis b a = some a := by
  simp [addLinearSBasis, h]

theorem addLinearSBasis_of_all_zero (b : Linear α) (a : SBasis α) (hb : b.isZero = false)
    (h : a.all Linear.isZero = true) :
    addLinearSBasis b a = some [b] := by
  simp [addLinearSBasis, hb, SBasis.isZero_eq, h, SBasis.ofLinear]

theorem addLinearSBasis_cons (b x : Linear α) (xs : SBasis α) (hb : b.isZero = false)
    (h : (x :: xs).all Linear.isZero = false) :
    addLinearSBasis b (x :: xs) = some (⟨x.a0 + b.a0, x.a1 + b.a1⟩ :: xs) := by
  simp only [addLinearSBasis, hb, SBasis.isZero_eq, h, Option.bind_eq_bind, Option.some_bind,
    SBasis.update_zero_cons, Linear.addAssign_eq]
  simp

theorem subLinearSBasis_of_all_zero (b : Linear α) (a : SBasis α)
    (h : a.all Linear.isZero = true) :
    subLinearSBasis b a = some [b] := by
  simp [subLinearSBasis, SBasis.isZero_eq, h, SBasis.ofLinear]

theorem subLinearSBasis_cons (b x : Linear α) (xs : SBasis α)
    (h : (x :: xs).all Linear.isZero = false) :
    subLinearSBasis b (x :: xs) = some (⟨-x.a0 + b.a0, -x.a1 + b.a1⟩ :: xs.map Linear.neg) := by
  simp only [subLinearSBasis, SBasis.isZero_eq, SBasis.neg_eq, h, Option.bind_eq_bind,
    Option.some_bind, List.map_cons, Linear.addAssign_eq]
  simp [Linear.neg, SBasis.update_zero_cons]

theorem addAssignLinear_of_all_zero (a : SBasis α) (b : Linear α)
    (h : a.all Linear.isZero = true) :
    addAssignLinear a b = some (a ++ [b]) := by
  simp [addAssignLinear, SBasis.isZero_eq, h]

theorem addAssignLinear_cons (x : Linear α) (xs : SBasis α) (b : Linear α)
    (h : (x :: xs).all Linear.isZero = false) :
    addAssignLinear (x :: xs) b = some (⟨x.a0 + b.a0, x.a1 + b.a1⟩ :: xs) := by
  simp only [addAssignLinear, SBasis.isZero_eq, h, Option.bind_eq_bind, Option.some_bind,
    SBasis.update_zero_cons, Linear.addAssign_eq]
  simp

theorem subAssignLinear_of_all_zero (a : SBasis α) (b : Linear α)
    (h : a.all Linear.isZero = true) :
    subAssignLinear a b = some (a ++ [b.neg]) := by
  simp [subAssignLinear, SBasis.isZero_eq, h]

theorem subAssignLinear_cons (x : Linear α) (xs : SBasis α) (b : Linear α)
    (h : (x :: xs).all Linear.isZero = false) :
    subAssignLinear (x :: xs) b = some (⟨x.a0 - b.a0, x.a1 - b.a1⟩ :: xs) := by
  simp only [subAssignLinear, SBasis.isZero_eq, h, Option.bind_eq_bind, Option.some_bind,
    SBasis.update_zero_cons, Linear.subAssign_eq]
  simp

theorem addDoubleSBasis_of_all_zero (b : α) (a : SBasis α) (h : a.all Linear.isZero = true) :
    addDoubleSBasis b a = some [⟨b, b⟩] := by
  simp [addDoubleSBasis, SBasis.isZero_eq, h, SBasis.ofLinear]

theorem addDoubleSBasis_cons (b : α) (x : Linear α) (xs : SBasis α)
    (h : (x :: xs).all Linear.isZero = false) :
    addDoubleSBasis b (x :: xs) = some (x :: xs) := by
  simp only [addDoubleSBasis, SBasis.isZero_eq, h, Option.bind_eq_bind, Option.some_bind,
    SBasis.update_zero_cons, Linear.addAssignDouble_eq]
  simp

theorem addAssignDouble_of_all_zero (a : SBasis α) (b : α) (h : a.all Linear.isZero = true) :
    addAssignDouble a b = some (a ++ [⟨b, b⟩]) := by
  simp [addAssignDouble, SBasis.isZero_eq, h]

theorem addAssignDouble_cons (x : Linear α) (xs : SBasis α) (b : α)
    (h : (x :: xs).all Linear.isZero = false) :
    addAssignDouble (x :: xs) b = some (⟨x.a0 + b, x.a1 + b⟩ :: xs) := by
  simp only [addAssignDouble, SBasis.isZero_eq, h, Option.bind_eq_bind, Option.some_bind,
    SBasis.update_zero_cons, Linear.addAssignDouble_eq]
  simp

theorem subAssignDouble_of_all_zero (a : SBasis α) (b : α) (h : a.all Linear.isZero = true) :
    subAssignDouble a b = some (a ++ [⟨b, b⟩]) := by
  simp [subAssignDouble, SBasis.isZero_eq, h]

theorem subAssignDouble_cons (x : Linear α) (xs : SBasis α) (b : α)
    (h : (x :: xs).all Linear.isZero = false) :
    subAssignDouble (x :: xs) b = some (⟨x.a0 - b, x.a1 - b⟩ :: xs) := by
  simp only [subAssignDouble, SBasis.isZero_eq, h, Option.bind_eq_bind, Option.some_bind,
    SBasis.update_zero_cons, Linear.subAssignDouble_eq]
  simp

/-! ## normalize and the represented function -/

theorem evalSpec_concat_zero (xs : SBasis α) (x : Linear α) (hx : x.isZero = true) (t : α) :
    evalSpec (xs ++ [x]) t = evalSpec xs t := by
  rw [evalSpec_append, evalSpec_cons, evalSpec_nil, Linear.pointAt_of_isZero x hx]
  ring

theorem SBasis.normalize_evalSpec (a : SBasis α) :
    ∃ r, a.normalize = some r ∧ ∀ t, evalSpec r t = evalSpec a t := by
  induction a using List.reverseRecOn with
  | nil => exact ⟨[], SBasis.normalize_nil, fun _ => rfl⟩
  | append_singleton xs x ih =>
    obtain ⟨r, hr, heval⟩ := ih
    by_cases hx : x.isZero = true
    · refine ⟨r, by rw [SBasis.normalize_concat, if_pos hx, hr], fun t => ?_⟩
      rw [heval t, evalSpec_concat_zero xs x hx t]
    · exact ⟨xs ++ [x], by rw [SBasis.normalize_concat, if_neg hx], fun _ => rfl⟩

theorem SBasis.at0_eq_evalSpec (a : SBasis α) : a.at0 = some (evalSpec a 0) := by
  rw [SBasis.at0_eq]
  cases a with
  | nil => simp [evalSpec_nil]
  | cons x xs => simp [evalSpec_cons, Linear.pointAt]

theorem SBasis.at1_eq_evalSpec (a : SBasis α) : a.at1 = some (evalSpec a 1) := by
  rw [SBasis.at1_eq]
  cases a with
  | nil => simp [evalSpec_nil]
  | cons x xs => simp [evalSpec_cons, Linear.pointAt]

/-! ## The represented function determines the coefficients -/

theorem exists_poly_hornerSpec (cs : List α) :
    ∃ q : Polynomial α, ∀ s, q.eval s = hornerSpec cs s := by
  induction cs with
  | nil => exact ⟨0, fun s => by simp [hornerSpec]⟩
  | cons c cs ih =>
    obtain ⟨q, hq⟩ := ih
    exact ⟨Polynomial.C c + Polynomial.X * q, fun s => by simp [hornerSpec, hq]⟩

theorem exists_poly_evalSpec (a : SBasis α) :
    ∃ p : Polynomial α, ∀ t, p.eval t = evalSpec a t := by
  obtain ⟨q0, h0⟩ := exists_poly_hornerSpec (a.map Linear.a0)
  obtain ⟨q1, h1⟩ := exists_poly_hornerSpec (a.map Linear.a1)
  refine ⟨(1 - Polynomial.X) * q0.comp (Polynomial.X * (1 - Polynomial.X))
    + Polynomial.X * q1.comp (Polynomial.X * (1 - Polynomial.X)), fun t => ?_⟩
  simp [evalSpec, h0, h1, Polynomial.eval_comp]

theorem poly_eval_zero_of_weight_mul (p : Polynomial α)
    (h : ∀ t, t * (1 - t) * p.eval t = 0) : ∀ t, p.eval t = 0 := by
  have hq : Polynomial.X * (1 - Polynomial.X) * p = 0 := by
    apply Polynomial.zero_of_eval_zero
    intro x
    simpa using h x
  have hX : (Polynomial.X : Polynomial α) ≠ 0 := Polynomial.X_ne_zero
  have h1X : (1 - Polynomial.X : Polynomial α) ≠ 0 := by
    intro h0
    have h' := congrArg (Polynomial.eval 0) h0
    simp at h'
  have hp : p = 0 := by
    rcases mul_eq_zero.mp hq with h' | h'
    · rcases mul_eq_zero.mp h' with h'' | h''
      · exact absurd h'' hX
      · exact absurd h'' h1X
    · exact h'
  intro t
  rw [hp]
  simp

theorem all_zero_of_evalSpec_zero (a : SBasis α) (h : ∀ t, evalSpec a t = 0) :
    ∀ l ∈ a, l.isZero = true := by
  induction a with
  | nil => simp
  | cons x a ih =>
    have h0 := h 0
    have h1 := h 1
    rw [evalSpec_cons] at h0 h1
    simp only [Linear.pointAt, sub_zero, mul_one, mul_zero, add_zero, zero_mul, sub_self,
      zero_add, one_mul] at h0 h1
    have hx : x.isZero = true := by simp [Linear.isZero, h0, h1]
    obtain ⟨p, hp⟩ := exists_poly_evalSpec a
    have hw : ∀ t, t * (1 - t) * p.eval t = 0 := by
      intro t
      have ht := h t
      rw [evalSpec_cons, Linear.pointAt_of_isZero x hx, zero_add] at ht
      rw [hp]
      exact ht
    have ha : ∀ t, evalSpec a t = 0 := by
      intro t
      rw [← hp]
      exact poly_eval_zero_of_weight_mul p hw t
    intro l hl
    rcases List.mem_cons.mp hl with hl' | hl'
    · rw [hl']
      exact hx
    · exact ih ha l hl'

theorem SBasis.normalize_eq_rdropWhile (a : SBasis α) :
    a.normalize = some (a.rdropWhile Linear.isZero) := by
  induction a using List.reverseRecOn with
  | nil => rw [SBasis.normalize_nil, List.rdropWhile_nil]
  | append_singleton xs x ih =>
    rw [SBasis.normalize_concat, List.rdropWhile_concat, ih]
    by_cases hx : x.isZero = true <;> simp [hx]

theorem rdropWhile_cons (p : Linear α → Bool) (x : Linear α) (a : SBasis α) :
    List.rdropWhile p (x :: a) =
      if List.rdropWhile p a = [] ∧ p x = true then [] else x :: List.rdropWhile p a := by
  induction a using List.reverseRecOn with
  | nil =>
    rw [List.rdropWhile_singleton, List.rdropWhile_nil]
    by_cases hx : p x = true <;> simp [hx]
  | append_singleton ys y ih =>
    rw [← List.cons_append, List.rdropWhile_concat, List.rdropWhile_concat]
    by_cases hy : p y = true
    · simp only [hy, if_true]
      exact ih
    · simp [hy]

theorem evalSpec_tail_eq (x y : Linear α) (a b : SBasis α)
    (h : ∀ t, evalSpec (x :: a) t = evalSpec (y :: b) t) :
    x = y ∧ ∀ t, evalSpec a t = evalSpec b t := by
  have h0 := h 0
  have h1 := h 1
  rw [evalSpec_cons, evalSpec_cons] at h0 h1
  simp only [Linear.pointAt, sub_zero, mul_one, mul_zero, add_zero, zero_mul, sub_self,
    zero_add, one_mul] at h0 h1
  have hxy : x = y := by
    cases x
    cases y
    simp only [Linear.mk.injEq]
    exact ⟨h0, h1⟩
  refine ⟨hxy, ?_⟩
  obtain ⟨p, hp⟩ := exists_poly_evalSpec a
  obtain ⟨q, hq⟩ := exists_poly_evalSpec b
  have hw : ∀ t, t * (1 - t) * (p - q).eval t = 0 := by
    intro t
    have ht := h t
    rw [evalSpec_cons, evalSpec_cons, hxy] at ht
    rw [Polynomial.eval_sub, hp, hq, mul_sub]
    linarith
  intro t
  have hz := poly_eval_zero_of_weight_mul (p - q) hw t
  rw [Polynomial.eval_sub, hp, hq] at hz
  linarith

theorem rdropWhile_eq_of_evalSpec_eq (a b : SBasis α)
    (h : ∀ t, evalSpec a t = evalSpec b t) :
    a.rdropWhile Linear.isZero = b.rdropWhile Linear.isZero := by
  induction a generalizing b with
  | nil =>
    have hb : ∀ l ∈ b, l.isZero = true :=
      all_zero_of_evalSpec_zero b (fun t => by rw [← h t, evalSpec_nil])
    rw [List.rdropWhile_nil, List.rdropWhile_eq_nil_iff.mpr hb]
  | cons x a ih =>
    cases b with
    | nil =>
      have ha : ∀ l ∈ x :: a, l.isZero = true :=
        all_zero_of_evalSpec_zero (x :: a) (fun t => by rw [h t, evalSpec_nil])
      rw [List.rdropWhile_nil, List.rdropWhile_eq_nil_iff.mpr ha]
    | cons y b =>
      obtain ⟨hxy, htail⟩ := evalSpec_tail_eq x y a b h
      rw [rdropWhile_cons, rdropWhile_cons, ih b htail, hxy]

/-! ## The product -/

theorem evalSpec_addPadded (a b : SBasis α) (t : α) :
    evalSpec (addPadded a b) t = evalSpec a t + evalSpec b t := by
  induction a generalizing b with
  | nil => simp [addPadded, evalSpec_nil]
  | cons x a ih =>
    cases b with
    | nil => simp [addPadded, evalSpec_nil]
    | cons y b =>
      rw [addPadded, evalSpec_cons, evalSpec_cons, evalSpec_cons, ih b]
      simp only [Linear.pointAt]
      ring

theorem evalSpec_shift_one (a : SBasis α) (t : α) :
    evalSpec (shift a 1) t = t * (1 - t) * evalSpec a t := by
  simp [shift, List.replicate, evalSpec_cons, Linear.pointAt]

theorem evalSpec_mulLinear (l : Linear α) (b : SBasis α) (t : α) :
    evalSpec (mulLinear l b) t = l.pointAt t * evalSpec b t := by
  induction b with
  | nil => simp [mulLinear, evalSpec_nil]
  | cons y b ih =>
    rw [mulLinear, evalSpec_addPadded, evalSpec_shift_one, ih, evalSpec_cons, evalSpec_cons,
      evalSpec_cons, evalSpec_nil]
    simp only [Linear.pointAt, Linear.ofHat, Linear.toTri]
    ring

theorem evalSpec_multiplyTerms (a b : SBasis α) (t : α) :
    evalSpec (multiplyTerms a b) t = evalSpec a t * evalSpec b t := by
  induction a with
  | nil => simp [multiplyTerms, evalSpec_nil]
  | cons x a ih =>
    rw [multiplyTerms, evalSpec_addPadded, evalSpec_shift_one, ih, evalSpec_mulLinear,
      evalSpec_cons]
    ring

theorem multiply_comm_terms (a b : SBasis α) : multiply a b = multiply b a := by
  rw [multiply, multiply, SBasis.normalize_eq_rdropWhile, SBasis.normalize_eq_rdropWhile,
    rdropWhile_eq_of_evalSpec_eq]
  intro t
  rw [evalSpec_multiplyTerms, evalSpec_multiplyTerms, mul_comm]

/-! ## Claims -/

/-- C1: series reversal is domain reversal. For every series `a` and every `t`,
`a.reverse()` succeeds and `a.reverse().pointAt(t)` and `a.pointAt(1 - t)` both
return the same value; for every Linear term `l`,
`l.reverse().pointAt(t) = l.pointAt(1 - t)`. -/
theorem reverse_is_domain_reversal (a : SBasis α) (l : Linear α) (t : α) :
    (∃ r v, a.reverse = some r ∧ r.pointAt t = some v ∧ a.pointAt (1 - t) = some v)
    ∧ l.reverse.pointAt t = l.pointAt (1 - t) := by
  refine ⟨⟨a.map Linear.reverse, _, SBasis.reverse_eq_map a, SBasis.pointAt_eq_horner _ t, ?_⟩,
    Linear.reverse_pointAt l t⟩
  rw [SBasis.pointAt_eq_horner, map_a0_reverse, map_a1_reverse]
  have hs : (1 - t) * (1 - (1 - t)) = t * (1 - t) := by ring
  rw [hs]
  congr 1
  ring

/-- C2: reversal is an involution. For every series `a`, `a.reverse()` succeeds with
a series of the same length, and reversing that result returns `a` itself (the same
terms with the same coefficients); termwise, `l.reverse().reverse() = l`. -/
theorem reverse_involution (a : SBasis α) :
    (∃ r, a.reverse = some r ∧ r.length = a.length ∧ r.reverse = some a)
    ∧ ∀ l : Linear α, l.reverse.reverse = l := by
  refine ⟨⟨a.map Linear.reverse, SBasis.reverse_eq_map a, by simp, ?_⟩, ?_⟩
  · rw [SBasis.reverse_eq_map, map_reverse_reverse]
  · intro l
    rfl

/-- C3: `SBasis::pointAt` computes the S-basis sum. For every series `a` and every `t`,
`a.pointAt(t)` returns `(1 - t) * Σ_k a_k0 * (t(1-t))^k + t * Σ_k a_k1 * (t(1-t))^k`,
which is also the Horner-scheme evaluation in `s = t(1-t)` of the two coefficient
lists; the empty series evaluates to 0. -/
theorem pointAt_closed_form (a : SBasis α) (t : α) :
    a.pointAt t =
      some ((1 - t) * ∑ k : Fin a.length, (a.get k).a0 * (t * (1 - t)) ^ (k : ℕ)
            + t * ∑ k : Fin a.length, (a.get k).a1 * (t * (1 - t)) ^ (k : ℕ))
    ∧ a.pointAt t =
      some ((1 - t) * hornerSpec (a.map Linear.a0) (t * (1 - t))
            + t * hornerSpec (a.map Linear.a1) (t * (1 - t)))
    ∧ SBasis.pointAt ([] : SBasis α) t = some 0 := by
  refine ⟨?_, SBasis.pointAt_eq_horner a t, ?_⟩
  · have key : ∀ f : Linear α → α,
        ∑ k : Fin a.length, f (a.get k) * (t * (1 - t)) ^ (k : ℕ)
          = hornerSpec (a.map f) (t * (1 - t)) := by
      intro f
      rw [← sum_getD_eq_horner, List.length_map, Finset.sum_range]
      apply Finset.sum_congr rfl
      intro k _
      rw [map_getD_of_lt a f k.1 k.2]
    rw [SBasis.pointAt_eq_horner, key Linear.a0, key Linear.a1]
  · rw [SBasis.pointAt_eq_horner]
    simp [hornerSpec]

/-- C4: endpoint evaluation agrees with general evaluation. For every series `a`,
`a.at0() = a.pointAt(0)` and `a.at1() = a.pointAt(1)`; `at0`/`at1` return the two
coefficients of the first term, and 0 for the empty series; the weight
`(t(1-t))^k` of every order `k >= 1` is 0 at `t = 0` and at `t = 1`. -/
theorem at0_at1_agree_with_pointAt (a : SBasis α) :
    a.at0 = a.pointAt 0 ∧ a.at1 = a.pointAt 1
    ∧ a.at0 = some (match a with | [] => 0 | l :: _ => l.a0)
    ∧ a.at1 = some (match a with | [] => 0 | l :: _ => l.a1)
    ∧ ∀ k : Nat, 1 ≤ k → ((0 : α) * (1 - 0)) ^ k = 0 ∧ ((1 : α) * (1 - 1)) ^ k = 0 := by
  have h0 := SBasis.at0_eq a
  have h1 := SBasis.at1_eq a
  refine ⟨?_, ?_, h0, h1, ?_⟩
  · rw [h0, SBasis.pointAt_eq_horner]
    cases a with
    | nil => simp [hornerSpec]
    | cons l rest => simp [hornerSpec]
  · rw [h1, SBasis.pointAt_eq_horner]
    cases a with
    | nil => simp [hornerSpec]
    | cons l rest => simp [hornerSpec]
  · intro k hk
    have hk0 : k ≠ 0 := Nat.one_le_iff_ne_zero.mp hk
    simp [hk0]

/-- C5: `normalize` strips exactly the trailing zero terms. For every series `a`,
`a.normalize()` succeeds with a series `r` that is a prefix of `a`, is empty or
ends in a term that is not the zero term, every removed term is the zero term,
no prefix of `a` that is empty or ends in a nonzero term is longer than `r`,
and normalizing `r` again leaves `r`. -/
theorem normalize_strips_trailing_zeros (a : SBasis α) :
    ∃ r, a.normalize = some r
      ∧ r <+: a
      ∧ (r = [] ∨ ∃ l, r.getLast? = some l ∧ l.isZero = false)
      ∧ (∀ l ∈ a.drop r.length, l.isZero = true)
      ∧ (∀ p : SBasis α, p <+: a → (p = [] ∨ ∃ l, p.getLast? = some l ∧ l.isZero = false) →
          p.length ≤ r.length)
      ∧ r.normalize = some r := by
  induction a using List.reverseRecOn with
  | nil =>
    refine ⟨[], SBasis.normalize_nil, List.prefix_refl _, Or.inl rfl, ?_, ?_, SBasis.normalize_nil⟩
    · simp
    · intro p hp _
      exact hp.length_le
  | append_singleton xs x ih =>
    obtain ⟨r, hr, hpre, hlast, hdrop, hmax, hidem⟩ := ih
    by_cases hx : x.isZero = true
    · refine ⟨r, ?_, ?_, hlast, ?_, ?_, hidem⟩
      · rw [SBasis.normalize_concat, if_pos hx, hr]
      · exact hpre.trans (List.prefix_append xs [x])
      · intro l hl
        rw [List.drop_append_of_le_length hpre.length_le] at hl
        rcases List.mem_append.mp hl with h | h
        · exact hdrop l h
        · rw [List.mem_singleton.mp h]
          exact hx
      · intro p hp hpl
        rcases List.prefix_concat_iff.mp hp with h | h
        · rcases hpl with h' | ⟨l, hl, hz⟩
          · simp [h']
          · rw [h, List.getLast?_concat] at hl
            rw [← Option.some.inj hl, hx] at hz
            exact absurd hz (by simp)
        · exact hmax p h hpl
    · have hx' : x.isZero = false := by simpa using hx
      have hn : SBasis.normalize (xs ++ [x]) = some (xs ++ [x]) := by
        rw [SBasis.normalize_concat, if_neg hx]
      refine ⟨xs ++ [x], hn, List.prefix_refl _, Or.inr ⟨x, List.getLast?_concat xs, hx'⟩,
        ?_, ?_, hn⟩
      · simp
      · intro p hp _
        exact hp.length_le

/-- C6: `valuation(a, tol)` follows the high-to-low scan. For every series `a` and
tolerance `tol` it returns the largest index `i` with `1 <= i < size(a)` such that
at least one of the two coefficients of term `i` has magnitude strictly below `tol`,
and 0 when there is no such index; on the empty series it returns 0. -/
theorem valuation_high_to_low_scan (a : SBasis α) (tol : α) :
    (∃ v, valuation a tol = some v ∧
      ((1 ≤ v ∧ v < a.length ∧ coeffBelowTol a tol v = true
          ∧ ∀ i, v < i → i < a.length → coeffBelowTol a tol i = false)
       ∨ (v = 0 ∧ ∀ i, 1 ≤ i → i < a.length → coeffBelowTol a tol i = false)))
    ∧ valuation ([] : SBasis α) tol = some 0 := by
  refine ⟨?_, by simp [valuation]⟩
  cases a with
  | nil =>
    refine ⟨0, by simp [valuation], Or.inr ⟨rfl, ?_⟩⟩
    intro i _ hi
    simp at hi
  | cons x xs =>
    have hlen : (x :: xs).length - 1 < (x :: xs).length := by simp
    obtain ⟨v, hv, hcase⟩ := valuationLoop_spec (x :: xs) tol ((x :: xs).length - 1) hlen
    refine ⟨v, by simpa [valuation] using hv, ?_⟩
    rcases hcase with ⟨h1, h2, h3, h4⟩ | ⟨h1, h2⟩
    · exact Or.inl ⟨h1, by omega, h3, fun i hi1 hi2 => h4 i hi1 (by omega)⟩
    · exact Or.inr ⟨h1, fun i hi1 hi2 => h2 i hi1 (by omega)⟩

/-- C7: on the series `{Linear(0,0), Linear(1,1)}`, whose lowest-order nonzero term
has index 1, `valuation` with the default tolerance 0 returns 0, not the degree of
the first nonzero coefficient. -/
theorem valuation_default_not_first_nonzero :
    valuation ([⟨0, 0⟩, ⟨1, 1⟩] : SBasis ℚ) valuationDefaultTol = some 0
    ∧ valuationSpec ([⟨0, 0⟩, ⟨1, 1⟩] : SBasis ℚ) = 1 := by
  constructor
  · decide
  · decide

/-- C8 as stated fails: on the two-term series `{Linear(1,1), Linear(2,2)}`,
`truncate(1)` leaves only the term of order 0, so the term of order 1 is not
retained and the length is 1, not `min(2, 1 + 1) = 2`. -/
theorem truncate_removes_order_k :
    SBasis.truncate ([⟨1, 1⟩, ⟨2, 2⟩] : SBasis ℚ) 1 = [⟨1, 1⟩]
    ∧ (SBasis.truncate ([⟨1, 1⟩, ⟨2, 2⟩] : SBasis ℚ) 1).length
        ≠ min ([⟨1, 1⟩, ⟨2, 2⟩] : SBasis ℚ).length (1 + 1) := by
  constructor
  · decide
  · decide

/-- C8, amended: `truncate(k)` keeps exactly the first `k` terms. For every series `a`
and every `k`, after `a.truncate(k)` the series is the terms of order `0..k-1` of the
original that existed, unchanged: every term of order `< k` is retained, every term
of order `>= k` is removed, and the length is `min(size, k)`. -/
theorem truncate_keeps_first_k (a : SBasis α) (k : Nat) :
    a.truncate k = a.take k
    ∧ (a.truncate k).length = min a.length k
    ∧ (∀ i, i < k → (a.truncate k)[i]? = a[i]?)
    ∧ (∀ i, k ≤ i → (a.truncate k)[i]? = none) := by
  have h : a.truncate k = a.take k := by
    unfold SBasis.truncate
    by_cases hk : k < a.length
    · simp [hk]
    · simp [hk, List.take_of_length_le (Nat.le_of_not_lt hk)]
  refine ⟨h, ?_, ?_, ?_⟩
  · rw [h, List.length_take, Nat.min_comm]
  · intro i hi
    rw [h, List.getElem?_take_of_lt hi]
  · intro i hi
    rw [h, List.getElem?_eq_none]
    rw [List.length_take]
    omega

/-- C9: the midpoint/variation form and the two-coefficient form of a Linear term are
mutually inverse. For all `h` and `t`, `Linear(Hat h, Tri t)` has the coefficients
`(h - t/2, h + t/2)` and converts back to `Hat = h` and `Tri = t`; for every Linear
`l`, `Linear(Hat(l), Tri(l))` has the same two coefficients as `l`. -/
theorem hat_tri_round_trip (h t : α) (l : Linear α) :
    Linear.ofHatTri ⟨h⟩ ⟨t⟩ = ⟨h - t / 2, h + t / 2⟩
    ∧ (Linear.ofHatTri ⟨h⟩ ⟨t⟩).toHat = ⟨h⟩
    ∧ (Linear.ofHatTri ⟨h⟩ ⟨t⟩).toTri = ⟨t⟩
    ∧ Linear.ofHatTri l.toHat l.toTri = l := by
  refine ⟨rfl, ?_, ?_, ?_⟩
  · simp only [Linear.ofHatTri, Linear.toHat, Hat.mk.injEq]
    ring
  · simp only [Linear.ofHatTri, Linear.toTri, Tri.mk.injEq]
    ring
  · cases l with
    | mk a0 a1 =>
      simp only [Linear.ofHatTri, Linear.toHat, Linear.toTri, Linear.mk.injEq]
      constructor <;> ring

/-- C10: lifting a Linear term to a series preserves evaluation. For every Linear `l`
and every `t`, `l.toSBasis().pointAt(t)` returns `l.pointAt(t) = a0*(1-t) + a1*t`,
`l.toSBasis().at0()` returns `l.at0()`, `l.toSBasis().at1()` returns `l.at1()`, and
`Linear(0,1).toSBasis().pointAt(0.5)` returns `0.5`. -/
theorem toSBasis_preserves_evaluation (l : Linear α) (t : α) :
    l.toSBasis.pointAt t = some (l.pointAt t)
    ∧ l.pointAt t = l.a0 * (1 - t) + l.a1 * t
    ∧ l.toSBasis.at0 = some l.at0
    ∧ l.toSBasis.at1 = some l.at1
    ∧ (Linear.toSBasis (⟨0, 1⟩ : Linear α)).pointAt (1 / 2) = some (1 / 2) := by
  have hp : ∀ (m : Linear α) (u : α), m.toSBasis.pointAt u = some (m.pointAt u) := by
    intro m u
    rw [SBasis.pointAt_eq_horner]
    simp only [Linear.toSBasis, SBasis.ofLinear, List.nil_append, List.map_cons, List.map_nil,
      hornerSpec, Linear.pointAt, Option.some.injEq]
    ring
  refine ⟨hp l t, rfl, ?_, ?_, ?_⟩
  · rw [SBasis.at0_eq]
    rfl
  · rw [SBasis.at1_eq]
    rfl
  · rw [hp]
    simp [Linear.pointAt]

/-- C11: out-of-range element access always fails and in-range access always succeeds.
Reading or writing a Linear term at `i` succeeds iff `0 <= i < 2`, and the read returns
coefficient `i`; reading a series at `i`, with the read-only or with the mutable
accessor, succeeds iff `i < size` and then returns term `i`; every other index gives
the failure, never a value. -/
theorem element_access_checked (l : Linear α) (i : Int) (f : α → α) (a : SBasis α) (n : Nat) :
    ((l.index i).isSome = true ↔ (0 ≤ i ∧ i < 2))
    ∧ ((l.update i f).isSome = true ↔ (0 ≤ i ∧ i < 2))
    ∧ l.index 0 = some l.a0 ∧ l.index 1 = some l.a1
    ∧ ((a.index n).isSome = true ↔ n < a.length)
    ∧ ((a.indexMut n).isSome = true ↔ n < a.length)
    ∧ a.index n = a[n]? ∧ a.indexMut n = a[n]?
    ∧ (¬ (0 ≤ i ∧ i < 2) → l.index i = none)
    ∧ (¬ n < a.length → a.index n = none ∧ a.indexMut n = none) := by
  have hidx : a.index n = a[n]? := by
    by_cases h : n < a.length
    · simp [SBasis.index, h]
    · simp [SBasis.index, h, List.getElem?_eq_none (Nat.le_of_not_lt h)]
  have hmut : a.indexMut n = a[n]? := by
    by_cases h : n < a.length
    · simp [SBasis.indexMut, h]
    · simp [SBasis.indexMut, h, List.getElem?_eq_none (Nat.le_of_not_lt h)]
  refine ⟨?_, ?_, Linear.index_zero l, Linear.index_one l, ?_, ?_, hidx, hmut, ?_, ?_⟩
  · by_cases h0 : 0 ≤ i <;> by_cases h2 : i < 2 <;> simp [Linear.index, h0, h2]
  · by_cases h0 : 0 ≤ i <;> by_cases h2 : i < 2 <;> simp [Linear.update, h0, h2]
  · rw [hidx]
    by_cases h : n < a.length
    · simp [h, List.getElem?_eq_getElem h]
    · simp [h, List.getElem?_eq_none (Nat.le_of_not_lt h)]
  · rw [hmut]
    by_cases h : n < a.length
    · simp [h, List.getElem?_eq_getElem h]
    · simp [h, List.getElem?_eq_none (Nat.le_of_not_lt h)]
  · intro h
    by_cases h0 : 0 ≤ i <;> by_cases h2 : i < 2 <;> simp [Linear.index, h0, h2]
    exact h ⟨h0, h2⟩
  · intro h
    rw [hidx, hmut]
    simp [List.getElem?_eq_none (Nat.le_of_not_lt h)]

/-- C11 at a concrete input: on the Linear term `(3, 4)` the index 2 fails, and on a
one-term series the index 1 fails with both accessors. -/
theorem element_access_checked_witness :
    ¬ ((0 : Int) ≤ 2 ∧ (2 : Int) < 2) ∧ ¬ (1 < ([⟨3, 4⟩] : SBasis ℚ).length)
    ∧ (⟨3, 4⟩ : Linear ℚ).index 2 = none
    ∧ SBasis.index ([⟨3, 4⟩] : SBasis ℚ) 1 = none :=
  ⟨by decide, by decide,
    (element_access_checked (⟨3, 4⟩ : Linear ℚ) 2 id [⟨3, 4⟩] 1).2.2.2.2.2.2.2.2.1 (by decide),
    ((element_access_checked (⟨3, 4⟩ : Linear ℚ) 2 id [⟨3, 4⟩] 1).2.2.2.2.2.2.2.2.2
      (by decide)).1⟩

/-- C15: on `b = 1` and the one-term series `a = {Linear(1,1)}`, `operator+(double,
SBasis)` builds `result` with the constant added and then returns `a` itself: the
returned series is `{Linear(1,1)}`, which evaluates to 1 at `t = 0`, not to
`1 + a.pointAt(0) = 2`. -/
theorem addDouble_returns_operand :
    addDoubleSBasis (1 : ℚ) [⟨1, 1⟩] = some [⟨1, 1⟩]
    ∧ SBasis.pointAt ([⟨1, 1⟩] : SBasis ℚ) 0 = some 1
    ∧ (1 : ℚ) ≠ 1 + 1 := by
  refine ⟨?_, ?_, by norm_num⟩
  · exact addDoubleSBasis_cons 1 ⟨1, 1⟩ [] (by decide)
  · rw [SBasis.pointAt_eq_evalSpec]
    simp [evalSpec, hornerSpec]

/-- C16: on the empty series and `b = 1`, `a -= b` appends `Linear(1,1)` instead of
`Linear(-1,-1)`: the series left is `{Linear(1,1)}`, which evaluates to 1 at `t = 0`,
not to `0 - 1 = -1`. -/
theorem subAssignDouble_pushes_positive :
    subAssignDouble ([] : SBasis ℚ) 1 = some [⟨1, 1⟩]
    ∧ SBasis.pointAt ([] : SBasis ℚ) 0 = some 0
    ∧ SBasis.pointAt ([⟨1, 1⟩] : SBasis ℚ) 0 = some 1
    ∧ (1 : ℚ) ≠ 0 - 1 := by
  refine ⟨?_, ?_, ?_, by norm_num⟩
  · exact subAssignDouble_of_all_zero [] 1 (by decide)
  · rw [SBasis.pointAt_eq_evalSpec]
    simp [evalSpec, hornerSpec]
  · rw [SBasis.pointAt_eq_evalSpec]
    simp [evalSpec, hornerSpec]

/-- C17: on the non-empty all-zero series `a = {Linear(0,0)}`, `a += Linear(1,1)` and
`a += 1` both append the term at order 1: the series left is
`{Linear(0,0), Linear(1,1)}`, which evaluates to 1/4 at `t = 1/2`, not to
`0 + 1 = 1`. -/
theorem addAssign_on_zero_series_appends :
    addAssignLinear ([⟨0, 0⟩] : SBasis ℚ) ⟨1, 1⟩ = some [⟨0, 0⟩, ⟨1, 1⟩]
    ∧ addAssignDouble ([⟨0, 0⟩] : SBasis ℚ) 1 = some [⟨0, 0⟩, ⟨1, 1⟩]
    ∧ SBasis.pointAt ([⟨0, 0⟩] : SBasis ℚ) (1 / 2) = some 0
    ∧ SBasis.pointAt ([⟨0, 0⟩, ⟨1, 1⟩] : SBasis ℚ) (1 / 2) = some (1 / 4)
    ∧ (1 / 4 : ℚ) ≠ 0 + Linear.pointAt ⟨1, 1⟩ (1 / 2)
    ∧ (1 / 4 : ℚ) ≠ 0 + 1 := by
  refine ⟨?_, ?_, ?_, ?_, ?_, by norm_num⟩
  · exact addAssignLinear_of_all_zero [⟨0, 0⟩] ⟨1, 1⟩ (by decide)
  · exact addAssignDouble_of_all_zero [⟨0, 0⟩] 1 (by decide)
  · rw [SBasis.pointAt_eq_evalSpec]
    simp [evalSpec, hornerSpec]
  · rw [SBasis.pointAt_eq_evalSpec]
    simp only [evalSpec, hornerSpec, List.map_cons, List.map_nil]
    norm_num
  · simp only [Linear.pointAt]
    norm_num

/-- C18: out-of-place combination of a Linear term with a series is pointwise. For
every Linear `b`, every series `a` and every `t`, with `v` the value of
`a.pointAt(t)`: `b + a` evaluates to `b.pointAt(t) + v`, `b - a` evaluates to
`b.pointAt(t) - v`, and `-a` evaluates to `-v`; the three operators succeed. -/
theorem linear_series_combination_pointwise (b : Linear α) (a : SBasis α) (t : α) :
    ∃ v, a.pointAt t = some v
      ∧ (∃ r, addLinearSBasis b a = some r ∧ r.pointAt t = some (b.pointAt t + v))
      ∧ (∃ r, subLinearSBasis b a = some r ∧ r.pointAt t = some (b.pointAt t - v))
      ∧ (∃ r, SBasis.neg a = some r ∧ r.pointAt t = some (-v)) := by
  refine ⟨evalSpec a t, SBasis.pointAt_eq_evalSpec a t, ?_, ?_, ?_⟩
  · by_cases hb : b.isZero = true
    · refine ⟨a, addLinearSBasis_of_isZero b a hb, ?_⟩
      rw [SBasis.pointAt_eq_evalSpec, Linear.pointAt_of_isZero b hb, zero_add]
    · have hb' : b.isZero = false := by simpa using hb
      by_cases ha : a.all Linear.isZero = true
      · refine ⟨[b], addLinearSBasis_of_all_zero b a hb' ha, ?_⟩
        rw [SBasis.pointAt_eq_evalSpec, evalSpec_all_zero a ha, evalSpec_cons, evalSpec_nil]
        congr 1
        ring
      · have ha' : a.all Linear.isZero = false := by simpa using ha
        obtain ⟨x, xs, rfl⟩ := SBasis.exists_cons_of_not_all_zero a ha'
        refine ⟨_, addLinearSBasis_cons b x xs hb' ha', ?_⟩
        rw [SBasis.pointAt_eq_evalSpec, evalSpec_cons, evalSpec_cons]
        simp only [Linear.pointAt]
        congr 1
        ring
  · by_cases ha : a.all Linear.isZero = true
    · refine ⟨[b], subLinearSBasis_of_all_zero b a ha, ?_⟩
      rw [SBasis.pointAt_eq_evalSpec, evalSpec_all_zero a ha, evalSpec_cons, evalSpec_nil]
      congr 1
      ring
    · have ha' : a.all Linear.isZero = false := by simpa using ha
      obtain ⟨x, xs, rfl⟩ := SBasis.exists_cons_of_not_all_zero a ha'
      refine ⟨_, subLinearSBasis_cons b x xs ha', ?_⟩
      rw [SBasis.pointAt_eq_evalSpec, evalSpec_cons, evalSpec_cons, evalSpec_map_neg]
      simp only [Linear.pointAt]
      congr 1
      ring
  · rw [SBasis.neg_eq]
    by_cases ha : a.all Linear.isZero = true
    · refine ⟨[], by simp [ha], ?_⟩
      rw [SBasis.pointAt_eq_evalSpec, evalSpec_all_zero a ha, evalSpec_nil, neg_zero]
    · have ha' : a.all Linear.isZero = false := by simpa using ha
      refine ⟨a.map Linear.neg, by simp [ha'], ?_⟩
      rw [SBasis.pointAt_eq_evalSpec, evalSpec_map_neg]

/-- C19: the in-place member `truncate` and the free function `truncate` agree. For
every series `a` and every `k`, `a.truncate(k)` leaves the series `truncate(a, k)`
returns, namely the first `min(k, size(a))` terms of `a`, unchanged and in order; `a`
is untouched when `k >= size(a)`, and the result is never longer than `a`. -/
theorem truncate_member_eq_free (a : SBasis α) (k : Nat) :
    SBasis.truncate a k = truncate a k
    ∧ truncate a k = a.take (min k a.length)
    ∧ (SBasis.truncate a k).length = min k a.length
    ∧ (∀ i, i < min k a.length → (SBasis.truncate a k)[i]? = a[i]?)
    ∧ (a.length ≤ k → SBasis.truncate a k = a)
    ∧ (SBasis.truncate a k).length ≤ a.length := by
  have hfree : truncate a k = a.take (min k a.length) := by
    simp [truncate]
  have hmem : SBasis.truncate a k = a.take (min k a.length) := by
    unfold SBasis.truncate
    by_cases hk : k < a.length
    · simp [hk, Nat.min_eq_left (Nat.le_of_lt hk)]
    · simp [hk, Nat.min_eq_right (Nat.le_of_not_lt hk)]
  refine ⟨by rw [hmem, hfree], hfree, ?_, ?_, ?_, ?_⟩
  · rw [hmem, List.length_take]
    omega
  · intro i hi
    rw [hmem, List.getElem?_take_of_lt hi]
  · intro h
    rw [hmem, Nat.min_eq_right h, List.take_length]
  · rw [hmem, List.length_take]
    omega

/-- C14: `normalize` does not change the represented function. For every series `a`
and every `t`, `a.normalize()` succeeds and leaves a series on which `pointAt(t)`,
`at0()`, `at1()` and `isZero()` return what they return on `a`; and `a.isZero()` is
true iff the series left by `a.normalize()` is empty. -/
theorem normalize_preserves_function (a : SBasis α) (t : α) :
    ∃ r, a.normalize = some r
      ∧ (∃ v, a.pointAt t = some v ∧ r.pointAt t = some v)
      ∧ (∃ v, a.at0 = some v ∧ r.at0 = some v)
      ∧ (∃ v, a.at1 = some v ∧ r.at1 = some v)
      ∧ (∃ z, a.isZero = some z ∧ r.isZero = some z)
      ∧ (a.isZero = some true ↔ r = []) := by
  have hz : ∃ r, a.normalize = some r ∧ r.all Linear.isZero = a.all Linear.isZero
      ∧ (a.all Linear.isZero = true ↔ r = []) := by
    induction a using List.reverseRecOn with
    | nil => exact ⟨[], SBasis.normalize_nil, rfl, by simp⟩
    | append_singleton xs x ih =>
      obtain ⟨r, hr, hall, hiff⟩ := ih
      by_cases hx : x.isZero = true
      · refine ⟨r, by rw [SBasis.normalize_concat, if_pos hx, hr], ?_, ?_⟩
        · rw [hall, List.all_append]
          simp [hx]
        · rw [← hiff, List.all_append]
          simp [hx]
      · refine ⟨xs ++ [x], by rw [SBasis.normalize_concat, if_neg hx], rfl, ?_⟩
        have hx' : x.isZero = false := by simpa using hx
        rw [List.all_append]
        simp [hx']
  obtain ⟨r, hr, hall, hiff⟩ := hz
  obtain ⟨r', hr', heval⟩ := SBasis.normalize_evalSpec a
  have hrr : r' = r := Option.some.inj (hr'.symm.trans hr)
  rw [hrr] at heval
  refine ⟨r, hr, ⟨evalSpec a t, SBasis.pointAt_eq_evalSpec a t, ?_⟩,
    ⟨evalSpec a 0, SBasis.at0_eq_evalSpec a, ?_⟩, ⟨evalSpec a 1, SBasis.at1_eq_evalSpec a, ?_⟩,
    ⟨a.all Linear.isZero, SBasis.isZero_eq a, ?_⟩, ?_⟩
  · rw [SBasis.pointAt_eq_evalSpec, heval]
  · rw [SBasis.at0_eq_evalSpec, heval]
  · rw [SBasis.at1_eq_evalSpec, heval]
  · rw [SBasis.isZero_eq, hall]
  · rw [SBasis.isZero_eq, ← hiff]
    simp

/-- C13: `isZero` characterises the zero function. For every series `a`, `a.isZero()`
returns a value, it is true iff every term of `a` is the zero term, and that holds
iff `a.pointAt(t)` returns 0 for every `t`; the empty series and the all-zero series
of every length are zero. -/
theorem isZero_characterises_zero_function (a : SBasis α) :
    (∃ z, a.isZero = some z)
    ∧ (a.isZero = some true ↔ ∀ l ∈ a, l = (⟨0, 0⟩ : Linear α))
    ∧ ((∀ l ∈ a, l = (⟨0, 0⟩ : Linear α)) ↔ ∀ t, a.pointAt t = some 0)
    ∧ SBasis.isZero ([] : SBasis α) = some true
    ∧ ∀ n : Nat, SBasis.isZero (List.replicate n (⟨0, 0⟩ : Linear α)) = some true := by
  have hterm : (∀ l ∈ a, l = (⟨0, 0⟩ : Linear α)) ↔ ∀ l ∈ a, l.isZero = true := by
    constructor
    · intro h l hl
      exact (Linear.isZero_iff l).mpr (h l hl)
    · intro h l hl
      exact (Linear.isZero_iff l).mp (h l hl)
  refine ⟨⟨_, SBasis.isZero_eq a⟩, ?_, ?_, ?_, ?_⟩
  · rw [hterm]
    exact SBasis.isZero_true_iff a
  · rw [hterm]
    constructor
    · intro h t
      rw [SBasis.pointAt_eq_evalSpec, evalSpec_of_all_zero a h t]
    · intro h
      apply all_zero_of_evalSpec_zero
      intro t
      have ht := h t
      rw [SBasis.pointAt_eq_evalSpec] at ht
      exact Option.some.inj ht
  · exact (SBasis.isZero_true_iff []).mpr (by simp)
  · intro n
    apply (SBasis.isZero_true_iff _).mpr
    intro l hl
    rw [(List.mem_replicate.mp hl).2]
    simp [Linear.isZero]

/-- C12: multiplication of series is pointwise multiplication of the represented
functions. For all series `a`, `b` and every `t` (in particular every `t` in `[0,1]`),
`multiply(a, b)` returns a series whose `pointAt(t)` is `a.pointAt(t) * b.pointAt(t)`;
`multiply(a, b)` and `multiply(b, a)` are the same series; and the operator forms
`a * b` and `a *= b` give `multiply(a, b)`. -/
theorem multiply_is_pointwise_product (a b : SBasis α) (t : α) :
    ∃ va vb, a.pointAt t = some va ∧ b.pointAt t = some vb
      ∧ (∃ r, multiply a b = some r ∧ r.pointAt t = some (va * vb))
      ∧ multiply a b = multiply b a
      ∧ mulSBasis a b = multiply a b
      ∧ mulAssignSBasis a b = multiply a b := by
  refine ⟨evalSpec a t, evalSpec b t, SBasis.pointAt_eq_evalSpec a t,
    SBasis.pointAt_eq_evalSpec b t, ?_, multiply_comm_terms a b, rfl, rfl⟩
  obtain ⟨r, hr, heval⟩ := SBasis.normalize_evalSpec (multiplyTerms a b)
  refine ⟨r, hr, ?_⟩
  rw [SBasis.pointAt_eq_evalSpec, heval t, evalSpec_multiplyTerms]

/-- C20: no operation defined in the header trips the element check. For every series
`a`, every Linear `b` and all `c`, `t`, `tol`, each of `isZero`, `at0`, `at1`,
`pointAt`, `reverse`, unary minus, `valuation(a, tol)`, `b + a`, `b - a`, `c + a`,
`a += b`, `a -= b`, `a += c` and `a -= c` returns a value: none of them reaches a
failed index check. -/
theorem operations_stay_in_range (a : SBasis α) (b : Linear α) (c t tol : α) :
    (SBasis.isZero a).isSome = true
    ∧ (SBasis.at0 a).isSome = true
    ∧ (SBasis.at1 a).isSome = true
    ∧ (SBasis.pointAt a t).isSome = true
    ∧ (SBasis.reverse a).isSome = true
    ∧ (SBasis.neg a).isSome = true
    ∧ (valuation a tol).isSome = true
    ∧ (addLinearSBasis b a).isSome = true
    ∧ (subLinearSBasis b a).isSome = true
    ∧ (addDoubleSBasis c a).isSome = true
    ∧ (addAssignLinear a b).isSome = true
    ∧ (subAssignLinear a b).isSome = true
    ∧ (addAssignDouble a c).isSome = true
    ∧ (subAssignDouble a c).isSome = true := by
  have hval : (valuation a tol).isSome = true := by
    cases a with
    | nil => simp [valuation]
    | cons x xs =>
      obtain ⟨v, hv, _⟩ := valuationLoop_spec (x :: xs) tol ((x :: xs).length - 1) (by simp)
      simp only [valuation, List.isEmpty_cons, Bool.false_eq_true, if_false, hv, Option.isSome_some]
  have hsplit : a.all Linear.isZero = true ∨ ∃ x xs, a = x :: xs ∧
      (x :: xs).all Linear.isZero = false := by
    by_cases ha : a.all Linear.isZero = true
    · exact Or.inl ha
    · have ha' : a.all Linear.isZero = false := by simpa using ha
      obtain ⟨x, xs, rfl⟩ := SBasis.exists_cons_of_not_all_zero a ha'
      exact Or.inr ⟨x, xs, rfl, ha'⟩
  refine ⟨by rw [SBasis.isZero_eq]; rfl, by rw [SBasis.at0_eq]; rfl, by rw [SBasis.at1_eq]; rfl,
    by rw [SBasis.pointAt_eq_evalSpec]; rfl, by rw [SBasis.reverse_eq_map]; rfl,
    by rw [SBasis.neg_eq]; rfl, hval, ?_, ?_, ?_, ?_, ?_, ?_, ?_⟩
  · by_cases hb : b.isZero = true
    · rw [addLinearSBasis_of_isZero b a hb]; rfl
    · have hb' : b.isZero = false := by simpa using hb
      rcases hsplit with ha | ⟨x, xs, rfl, ha⟩
      · rw [addLinearSBasis_of_all_zero b a hb' ha]; rfl
      · rw [addLinearSBasis_cons b x xs hb' ha]; rfl
  · rcases hsplit with ha | ⟨x, xs, rfl, ha⟩
    · rw [subLinearSBasis_of_all_zero b a ha]; rfl
    · rw [subLinearSBasis_cons b x xs ha]; rfl
  · rcases hsplit with ha | ⟨x, xs, rfl, ha⟩
    · rw [addDoubleSBasis_of_all_zero c a ha]; rfl
    · rw [addDoubleSBasis_cons c x xs ha]; rfl
  · rcases hsplit with ha | ⟨x, xs, rfl, ha⟩
    · rw [addAssignLinear_of_all_zero a b ha]; rfl
    · rw [addAssignLinear_cons x xs b ha]; rfl
  · rcases hsplit with ha | ⟨x, xs, rfl, ha⟩
    · rw [subAssignLinear_of_all_zero a b ha]; rfl
    · rw [subAssignLinear_cons x xs b ha]; rfl
  · rcases hsplit with ha | ⟨x, xs, rfl, ha⟩
    · rw [addAssignDouble_of_all_zero a c ha]; rfl
    · rw [addAssignDouble_cons x xs c ha]; rfl
  · rcases hsplit with ha | ⟨x, xs, rfl, ha⟩
    · rw [subAssignDouble_of_all_zero a c ha]; rfl
    · rw [subAssignDouble_cons x xs c ha]; rfl

end Geom
